import Mathlib

/-!
Shallow embedding of the core logic of the ollama_folderAnalyzer repository
(src/file_analyzer.py, src/agents_file_analyzer.py,
src/azure_agents_file_analyzer.py; the two agents variants are character-for-
character identical in the functions modelled here).

Text is modelled as `List Char` (Python strings are sequences of code points,
and `len`, slicing and concatenation act on code points exactly as `List Char`
operations do). Timestamps are modelled as `Int` seconds: the source sorts the
ISO-8601 strings produced by `datetime.isoformat()`, whose lexicographic order
coincides with chronological order for the fixed-width format datetime emits,
so sorting by the integer timestamp is the same sort. The filesystem and the
codec layer are modelled by explicit data (`Folder`, `PyFile`): the source's
behaviour is a pure function of what the filesystem calls return.
-/

namespace FolderAnalyzer

/-- Characters accepted by the tag regex character class (ASCII letters, digits,
underscore, hyphen, slash) of src/file_analyzer.py line 99. `Char.isAlpha` and
`Char.isDigit` are ASCII-only, matching the ASCII-only regex classes. -/
def isTagChar (c : Char) : Bool :=
  c.isAlpha || c.isDigit || c == '_' || c == '-' || c == '/'

/-- Characters accepted by the block-anchor regex class (ASCII letters, digits,
hyphen) of src/file_analyzer.py line 102. -/
def isAnchorChar (c : Char) : Bool :=
  c.isAlpha || c.isDigit || c == '-'

/-- Marker appended after a wiki cross-link (src/file_analyzer.py line 96). -/
def linkMarker : List Char := "（Obsidianリンク）".toList

/-- Marker appended after a tag (src/file_analyzer.py line 99). -/
def tagMarker : List Char := "（Obsidianタグ）".toList

/-- Marker used by the block-anchor rule (src/file_analyzer.py line 102). -/
def blockMarker : List Char := "（ブロック参照）".toList

/-- One left-to-right pass of the cross-link substitution
(src/file_analyzer.py line 96): pattern two open brackets, one or more
non-close-bracket characters, two close brackets; the replacement re-emits the
whole match and appends `linkMarker`. The fuel argument bounds recursion depth;
each step consumes at least one character, so fuel `s.length` suffices and the
function is total structural recursion (kernel-reducible). On a failed match at
an opening position the scan advances one character, as Python's engine does.
Greediness needs no backtracking here: the group characters exclude the close
bracket, so the maximal run is the only candidate. -/
def subLinkFuel : Nat → List Char → List Char
  | 0, s => s
  | fuel + 1, s =>
    match s with
    | '[' :: '[' :: rest =>
      let run := rest.takeWhile (fun c => c != ']')
      if run.length ≠ 0 ∧ (rest.drop run.length).take 2 = [']', ']'] then
        '[' :: '[' :: (run ++ ']' :: ']' ::
          (linkMarker ++ subLinkFuel fuel (rest.drop (run.length + 2))))
      else
        '[' :: subLinkFuel fuel ('[' :: rest)
    | c :: rest => c :: subLinkFuel fuel rest
    | [] => []

def subLink (s : List Char) : List Char := subLinkFuel s.length s

/-- One pass of the tag substitution (src/file_analyzer.py line 99): a hash
sign followed by one or more tag characters; the replacement re-emits the match
and appends `tagMarker`. -/
def subTagFuel : Nat → List Char → List Char
  | 0, s => s
  | fuel + 1, s =>
    match s with
    | '#' :: rest =>
      let run := rest.takeWhile isTagChar
      if run.isEmpty then '#' :: subTagFuel fuel rest
      else '#' :: (run ++ (tagMarker ++ subTagFuel fuel (rest.drop run.length)))
    | c :: rest => c :: subTagFuel fuel rest
    | [] => []

def subTag (s : List Char) : List Char := subTagFuel s.length s

/-- One pass of the block-anchor substitution (src/file_analyzer.py line 102).
The replacement template in the source is the raw string caret,
backslash, backslash, digit one, marker: Python's re module interprets the
doubled backslash as an escaped literal backslash, so the emitted text is
caret, one literal backslash, the character '1', then `blockMarker` — the
captured anchor text is consumed but NOT re-emitted. This is modelled
faithfully here. -/
def subAnchorFuel : Nat → List Char → List Char
  | 0, s => s
  | fuel + 1, s =>
    match s with
    | '^' :: rest =>
      let run := rest.takeWhile isAnchorChar
      if run.isEmpty then '^' :: subAnchorFuel fuel rest
      else '^' :: '\\' :: '1' ::
        (blockMarker ++ subAnchorFuel fuel (rest.drop run.length))
    | c :: rest => c :: subAnchorFuel fuel rest
    | [] => []

def subAnchor (s : List Char) : List Char := subAnchorFuel s.length s

/-- `FileAnalyzer._process_obsidian_markdown` (src/file_analyzer.py lines
91-104) and the identical inline block of the agents variants: the three
substitutions applied sequentially, cross-link first, then tag, then block
anchor, each over the whole text. -/
def processObsidianMarkdown (s : List Char) : List Char :=
  subAnchor (subTag (subLink s))

/-- The final path component: everything after the last slash
(`pathlib.PurePath.name`). The scanned paths come from `Path.rglob`, so they
never end in a separator; POSIX separator assumed. -/
def pathName (p : List Char) : List Char :=
  (p.reverse.takeWhile (fun c => c != '/')).reverse

/-- `pathlib.PurePath.suffix`: the substring of the name from its last dot,
provided that dot is neither the first nor the last character of the name;
empty otherwise. `k` counts the characters strictly after the last dot. -/
def pathSuffix (p : List Char) : List Char :=
  let revName := (pathName p).reverse
  let k := (revName.takeWhile (fun c => c != '.')).length
  if 0 < k ∧ k + 1 < revName.length then '.' :: (revName.take k).reverse
  else []

/-- `str.lower` restricted to ASCII; Python's `str.lower` agrees with
`Char.toLower` on the ASCII extensions compared here. -/
def lowerStr (s : List Char) : List Char := s.map Char.toLower

/-- The note-format extension: `file_ext == '.md'` decides whether the
Obsidian processing runs (src/file_analyzer.py line 73). -/
def mdExt : List Char := ".md".toList

/-- The encodings the readers mention: the primary attempt plus the fixed
fallback list of src/file_analyzer.py line 79. -/
inductive Enc where
  | utf8
  | shift_jis
  | cp932
  | latin1
  | utf16
deriving DecidableEq

/-- Outcome of one `open(path, encoding=e).read()` attempt: a successful
decode, a `UnicodeDecodeError`, or any other exception (modelled with its
message). -/
inductive ReadOutcome where
  | ok (text : List Char)
  | decodeError
  | ioError (msg : List Char)
deriving DecidableEq

/-- A file as the readers observe it: what each encoding attempt returns.
Reading is the only filesystem effect of the readers, so the reader functions
are pure functions of this data. -/
structure PyFile where
  read : Enc → ReadOutcome

/-- The encoding names as they appear in the source's fallback list and
f-string tag. -/
def encName : Enc → List Char
  | .utf8 => "utf-8".toList
  | .shift_jis => "shift_jis".toList
  | .cp932 => "cp932".toList
  | .latin1 => "latin1".toList
  | .utf16 => "utf-16".toList

/-- The prefix the fallback branch prepends to a successful fallback decode:
an open bracket, the encoding name, the word エンコーディング, close bracket,
space (src/file_analyzer.py line 84). -/
def encTag (e : Enc) : List Char :=
  '[' :: (encName e ++ "エンコーディング] ".toList)

/-- The sentinel returned when every encoding attempt fails
(src/file_analyzer.py line 87). -/
def undecodableMsg (path : List Char) : List Char :=
  "[読み込み不可能なエンコーディング: ".toList ++ path ++ [']']

/-- The message returned for a non-decode exception on the primary attempt
(src/file_analyzer.py line 89). -/
def ioErrorMsg (m : List Char) : List Char :=
  "[読み込みエラー: ".toList ++ m ++ [']']

/-- The fixed fallback priority list (src/file_analyzer.py line 79). -/
def fallbackEncodings : List Enc :=
  [Enc.shift_jis, Enc.cp932, Enc.latin1, Enc.utf16]

namespace FileAnalyzer

/-- The fallback loop of `FileAnalyzer.read_file_content` (src/file_analyzer.py
lines 79-87): try each encoding in order; any exception continues the loop; a
success returns the tagged content; exhaustion returns the sentinel. -/
def tryFallbacks (f : PyFile) (path : List Char) : List Enc → List Char
  | [] => undecodableMsg path
  | e :: rest =>
    match f.read e with
    | .ok content => encTag e ++ content
    | _ => tryFallbacks f path rest

/-- `FileAnalyzer.read_file_content` (src/file_analyzer.py lines 61-89): read
as UTF-8; on success run the Obsidian processing when the lower-cased suffix is
the markdown extension; on a decode error run the fallback loop; on any other
exception return the error message. No truncation in this variant. -/
def read_file_content (f : PyFile) (path : List Char) : List Char :=
  let fileExt := lowerStr (pathSuffix path)
  match f.read .utf8 with
  | .ok content =>
    if fileExt = mdExt then processObsidianMarkdown content else content
  | .decodeError => tryFallbacks f path fallbackEncodings
  | .ioError m => ioErrorMsg m

end FileAnalyzer

/-- The truncation of the agents readers (src/agents_file_analyzer.py lines
76-77): if the decoded text is longer than `maxChars`, keep the first
`maxChars` characters and append the three-dot marker. -/
def truncateContent (s : List Char) (maxChars : Nat) : List Char :=
  if maxChars < s.length then s.take maxChars ++ "...".toList else s

namespace Agents

/-- The fallback loop of the agents `read_file_content`
(src/agents_file_analyzer.py lines 93-103): same loop as the FileAnalyzer one
but the successful content is truncated before the tag is prepended. -/
def tryFallbacks (f : PyFile) (path : List Char) (maxChars : Nat) :
    List Enc → List Char
  | [] => undecodableMsg path
  | e :: rest =>
    match f.read e with
    | .ok content => encTag e ++ truncateContent content maxChars
    | _ => tryFallbacks f path maxChars rest

/-- The agents `read_file_content` (src/agents_file_analyzer.py lines 52-105,
identically src/azure_agents_file_analyzer.py lines 98-151): read as UTF-8,
truncate, then annotate when the lower-cased suffix is the markdown extension;
fallbacks on a decode error; error message otherwise. Annotation runs only on
the primary branch, and strictly after truncation. -/
def read_file_content (f : PyFile) (path : List Char) (maxChars : Nat) :
    List Char :=
  let fileExt := lowerStr (pathSuffix path)
  match f.read .utf8 with
  | .ok content =>
    let content := truncateContent content maxChars
    if fileExt = mdExt then processObsidianMarkdown content else content
  | .decodeError => tryFallbacks f path maxChars fallbackEncodings
  | .ioError m => ioErrorMsg m

end Agents

/-- One filesystem entry as `Path.rglob` yields it: its path, whether it is a
regular file, and what `stat()` returns for it (`none` models a stat that
raises, e.g. permission error or a race with deletion): modification time in
seconds and size in bytes. -/
structure FSEntry where
  path : List Char
  isFile : Bool
  stat? : Option (Int × Nat)
deriving DecidableEq

/-- The root directory as the scanner observes it: whether `Path.exists()` is
true, whether it is a directory, whether it is readable, and the entries the
recursive walk yields in traversal order. The source consults only `exists'`
and the walk result; `isDir` and `readable` record the facts the specification
talks about — `pathlib`'s recursive glob suppresses permission errors and
yields nothing rather than raising, so an existing unreadable or non-directory
root produces an empty walk, not an exception. -/
structure Folder where
  exists' : Bool
  isDir : Bool
  readable : Bool
  entries : List FSEntry
deriving DecidableEq

/-- One manifest entry (the dict appended at src/file_analyzer.py lines
49-53): path, modification time, size. -/
structure FileRecord where
  path : List Char
  modified : Int
  size : Nat
deriving DecidableEq

/-- The filter body of `find_recent_files` (src/file_analyzer.py lines 44-55):
keep regular files whose stat succeeds and whose modification time is strictly
later than the cutoff; a failed stat is skipped by the bare except. -/
def recentOf (entries : List FSEntry) (cutoff : Int) : List FileRecord :=
  entries.filterMap fun e =>
    if e.isFile then
      match e.stat? with
      | some st =>
        if cutoff < st.1 then some ⟨e.path, st.1, st.2⟩ else none
      | none => none
    else none

/-- Stable descending insertion: the record being inserted arrived later in
traversal order, so it goes after every already-placed record with an equal or
later modification time. -/
def insertRecord (r : FileRecord) : List FileRecord → List FileRecord
  | [] => [r]
  | x :: xs =>
    if r.modified ≤ x.modified then x :: insertRecord r xs
    else r :: x :: xs

/-- The sort of src/file_analyzer.py line 58: `list.sort` with the ISO
timestamp as key and `reverse=True` is a stable descending sort by
modification time (ISO-8601 order is chronological order); a stable sort's
output is determined by input and key, so this stable insertion sort computes
the same list. -/
def sortRecords (l : List FileRecord) : List FileRecord :=
  l.foldl (fun acc r => insertRecord r acc) []

/-- Seconds in a day: `timedelta(days=days)` on naive datetimes is exactly
86400 seconds per day. -/
def secondsPerDay : Int := 86400

/-- `find_recent_files` (src/file_analyzer.py lines 35-59, identically
src/agents_file_analyzer.py lines 13-49 and
src/azure_agents_file_analyzer.py lines 59-95, which only serialize the same
list to JSON afterwards): raise when the root does not exist — modelled as
`Except.error` carrying the message — otherwise filter and sort. The agents
variants raise the same `ValueError`; the spec calls this failure
`NotFoundError`. -/
def find_recent_files (folder : Folder) (folderPath : List Char)
    (now days : Int) : Except (List Char) (List FileRecord) :=
  if folder.exists' = false then
    .error ("フォルダが存在しません: ".toList ++ folderPath)
  else
    .ok (sortRecords (recentOf folder.entries (now - days * secondsPerDay)))

/-- Decidable equality of scan results, so concrete scans can be evaluated
inside proofs. -/
instance : DecidableEq (Except (List Char) (List FileRecord)) := fun a b =>
  match a, b with
  | .ok x, .ok y =>
    if h : x = y then .isTrue (by rw [h]) else .isFalse (by simp [h])
  | .error x, .error y =>
    if h : x = y then .isTrue (by rw [h]) else .isFalse (by simp [h])
  | .ok _, .error _ => .isFalse (by simp)
  | .error _, .ok _ => .isFalse (by simp)

/-- One per-extension statistics bucket (the dict created at
src/agents_file_analyzer.py line 134). -/
structure TypeStat where
  count : Nat
  total_size : Nat
deriving DecidableEq

/-- The key under which a file is aggregated (src/agents_file_analyzer.py
line 131): the lower-cased suffix, or the explicit no-extension bucket when
the suffix is empty (the empty string is falsy, so the `or` picks the
sentinel). -/
def extKey (path : List Char) : List Char :=
  let s := lowerStr (pathSuffix path)
  if s = [] then "拡張子なし".toList else s

/-- One update of the `type_stats` dict (src/agents_file_analyzer.py lines
133-137): insertion-ordered map, new keys appended at the end, existing keys
updated in place. -/
def bump (ext : List Char) (size : Nat) :
    List (List Char × TypeStat) → List (List Char × TypeStat)
  | [] => [(ext, ⟨1, size⟩)]
  | (k, st) :: rest =>
    if k = ext then (k, ⟨st.count + 1, st.total_size + size⟩) :: rest
    else (k, st) :: bump ext size rest

/-- One iteration of the aggregation loop: update the per-extension map and
the running total size. -/
def aggStep (acc : List (List Char × TypeStat) × Nat) (f : FileRecord) :
    List (List Char × TypeStat) × Nat :=
  (bump (extKey f.path) f.size acc.1, acc.2 + f.size)

/-- The result dict of `analyze_file_types` (src/agents_file_analyzer.py lines
140-144). -/
structure TypeStatsResult where
  file_types : List (List Char × TypeStat)
  total_files : Nat
  total_size : Nat
deriving DecidableEq

/-- `analyze_file_types` (src/agents_file_analyzer.py lines 108-145,
identically src/azure_agents_file_analyzer.py lines 154-191), modelled on the
already-parsed manifest (the JSON round trip between the two tools is the
identity on these records). -/
def analyze_file_types (files : List FileRecord) : TypeStatsResult :=
  let res := files.foldl aggStep ([], 0)
  { file_types := res.1, total_files := files.length, total_size := res.2 }

/-- Sum of the per-extension counts of a statistics map. -/
def sumCounts (l : List (List Char × TypeStat)) : Nat :=
  (l.map fun p => p.2.count).sum

/-- Sum of the per-extension sizes of a statistics map. -/
def sumSizes (l : List (List Char × TypeStat)) : Nat :=
  (l.map fun p => p.2.total_size).sum

/-- Sum of the sizes of a manifest. -/
def sizesOf (files : List FileRecord) : Nat :=
  (files.map fun f => f.size).sum

/-- The manifest order invariant: non-increasing modification times. -/
def RecSorted (l : List FileRecord) : Prop :=
  l.Pairwise fun a b => b.modified ≤ a.modified

/-- The first fallback encoding that decodes, with its text, in the fixed
priority order — the specification's description of the fallback loop's
result. -/
def firstFallbackSuccess (f : PyFile) : Option (Enc × List Char) :=
  fallbackEncodings.findSome? fun e =>
    match f.read e with
    | .ok c => some (e, c)
    | _ => none

/-- A concrete markdown file whose UTF-8 decode succeeds with a single tag
token; used by the C2 counterexample and the C2, C3 witnesses. -/
def tagOnlyFile : PyFile where
  read := fun e =>
    match e with
    | .utf8 => .ok "#todo".toList
    | _ => .decodeError

/-- A concrete markdown file whose UTF-8 decode succeeds with a tag token that
a two-character budget splits; used by the C3 witness. -/
def splitTagFile : PyFile where
  read := fun e =>
    match e with
    | .utf8 => .ok "x#todo".toList
    | _ => .decodeError

/-- A concrete file whose UTF-8 decode fails and whose shift_jis decode
succeeds; used by the C2 and C3 counterexamples and the C5 witness. -/
def sjisFile : PyFile where
  read := fun e =>
    match e with
    | .shift_jis => .ok "#todo".toList
    | _ => .decodeError

/-- A concrete file where shift_jis and cp932 also fail to decode and latin1
succeeds; used by the C10 witness. -/
def latin1File : PyFile where
  read := fun e =>
    match e with
    | .latin1 => .ok "hello".toList
    | _ => .decodeError

/-- A concrete existing root with one recent file, one file exactly at the
cutoff, one stat failure and one directory entry; `now = 100000`,
`window = 1 day`, cutoff `13600`. -/
def demoFolder : Folder where
  exists' := true
  isDir := true
  readable := true
  entries :=
    [ ⟨"notes/a.md".toList, true, some (50000, 7)⟩,
      ⟨"notes/old.md".toList, true, some (13600, 3)⟩,
      ⟨"notes/locked.md".toList, true, none⟩,
      ⟨"notes/sub".toList, false, some (99999, 0)⟩ ]

/-- A concrete existing root that is not a readable directory and whose
recursive walk therefore yields nothing; used by the C4 counterexample. -/
def unreadableRoot : Folder where
  exists' := true
  isDir := true
  readable := false
  entries := []

/-- A concrete root with several recent files, including a modification-time
tie, used by the C7 witness. -/
def tieFolder : Folder where
  exists' := true
  isDir := true
  readable := true
  entries :=
    [ ⟨"a".toList, true, some (50000, 1)⟩,
      ⟨"b".toList, true, some (70000, 2)⟩,
      ⟨"c".toList, true, some (50000, 3)⟩ ]

/-- A concrete two-record manifest used by the C8 witness. -/
def demoManifest : List FileRecord :=
  [ ⟨"notes/a.MD".toList, 50000, 7⟩,
    ⟨"notes/README".toList, 40000, 11⟩ ]

end FolderAnalyzer

namespace FolderAnalyzer

theorem mem_insertRecord {y r : FileRecord} {l : List FileRecord} :
    y ∈ insertRecord r l ↔ y = r ∨ y ∈ l := by
  induction l with
  | nil => simp [insertRecord]
  | cons x xs ih =>
    simp only [insertRecord]
    split
    · simp only [List.mem_cons, ih]
      tauto
    · simp only [List.mem_cons]

theorem recSorted_insertRecord {r : FileRecord} {l : List FileRecord}
    (h : RecSorted l) : RecSorted (insertRecord r l) := by
  induction l with
  | nil => simp [insertRecord, RecSorted]
  | cons x xs ih =>
    simp only [RecSorted, List.pairwise_cons] at h
    simp only [insertRecord]
    split
    next hle =>
      simp only [RecSorted, List.pairwise_cons]
      refine ⟨fun y hy => ?_, ih h.2⟩
      rcases mem_insertRecord.1 hy with rfl | hy'
      · exact hle
      · exact h.1 y hy'
    next hgt =>
      simp only [RecSorted, List.pairwise_cons]
      refine ⟨fun y hy => ?_, h⟩
      rcases List.mem_cons.1 hy with rfl | hy'
      · omega
      · have := h.1 y hy'
        omega

theorem recSorted_foldl_insert (l : List FileRecord) :
    ∀ acc : List FileRecord, RecSorted acc →
      RecSorted (l.foldl (fun acc r => insertRecord r acc) acc) := by
  induction l with
  | nil => intro acc hacc; simpa using hacc
  | cons r rs ih => intro acc hacc; exact ih _ (recSorted_insertRecord hacc)

theorem recSorted_sortRecords (l : List FileRecord) : RecSorted (sortRecords l) :=
  recSorted_foldl_insert l [] (by simp [RecSorted])

theorem insertRecord_append {r : FileRecord} {l : List FileRecord}
    (h : ∀ x ∈ l, r.modified ≤ x.modified) :
    insertRecord r l = l ++ [r] := by
  induction l with
  | nil => rfl
  | cons x xs ih =>
    simp only [insertRecord]
    rw [if_pos (h x (List.mem_cons_self x xs))]
    rw [ih fun y hy => h y (List.mem_cons_of_mem x hy)]
    simp

theorem foldl_insert_of_sorted (l : List FileRecord) :
    ∀ acc : List FileRecord, RecSorted l →
      (∀ x ∈ acc, ∀ y ∈ l, y.modified ≤ x.modified) →
      l.foldl (fun acc r => insertRecord r acc) acc = acc ++ l := by
  induction l with
  | nil => intro acc _ _; simp
  | cons r rs ih =>
    intro acc hl hcross
    simp only [RecSorted, List.pairwise_cons] at hl
    rw [List.foldl_cons,
      insertRecord_append fun x hx => hcross x hx r (List.mem_cons_self r rs),
      ih (acc ++ [r]) hl.2 ?_]
    · simp
    · intro x hx y hy
      rcases List.mem_append.1 hx with hx' | hx'
      · exact hcross x hx' y (List.mem_cons_of_mem r hy)
      · simp only [List.mem_singleton] at hx'
        subst hx'
        exact hl.1 y hy

theorem sortRecords_of_sorted {l : List FileRecord} (h : RecSorted l) :
    sortRecords l = l := by
  simpa [sortRecords] using foldl_insert_of_sorted l [] h (by simp)

theorem mem_foldl_insert {y : FileRecord} (l : List FileRecord) :
    ∀ acc : List FileRecord,
      (y ∈ l.foldl (fun acc r => insertRecord r acc) acc ↔ y ∈ acc ∨ y ∈ l) := by
  induction l with
  | nil => intro acc; simp
  | cons r rs ih =>
    intro acc
    rw [List.foldl_cons, ih]
    simp only [mem_insertRecord, List.mem_cons]
    tauto

theorem mem_sortRecords {y : FileRecord} {l : List FileRecord} :
    y ∈ sortRecords l ↔ y ∈ l := by
  simpa [sortRecords] using mem_foldl_insert l []

theorem filter_insertRecord (t : Int) {r : FileRecord} {l : List FileRecord}
    (hl : RecSorted l) :
    (insertRecord r l).filter (fun x => x.modified == t)
      = l.filter (fun x => x.modified == t)
        ++ if r.modified == t then [r] else [] := by
  induction l with
  | nil =>
    by_cases hr : (r.modified == t) <;> simp [insertRecord, List.filter_cons, hr]
  | cons x xs ih =>
    simp only [RecSorted, List.pairwise_cons] at hl
    simp only [insertRecord]
    split
    next hle =>
      by_cases hx : (x.modified == t)
      · simp [List.filter_cons, hx, ih hl.2]
      · simp [List.filter_cons, hx, ih hl.2]
    next hgt =>
      by_cases hr : (r.modified == t)
      · have hnone : xs.filter (fun x => x.modified == t) = [] := by
          apply List.filter_eq_nil_iff.2
          intro y hy
          have h1 := hl.1 y hy
          have h2 : r.modified = t := by simpa using hr
          simp only [beq_iff_eq]
          omega
        have hxnot : ¬ (x.modified == t) = true := by
          have h2 : r.modified = t := by simpa using hr
          simp only [beq_iff_eq]
          omega
        simp [List.filter_cons, hr, hxnot, hnone]
      · simp [List.filter_cons, hr]

theorem filter_foldl_insert (t : Int) (l : List FileRecord) :
    ∀ acc : List FileRecord, RecSorted acc →
      (l.foldl (fun acc r => insertRecord r acc) acc).filter (fun x => x.modified == t)
        = acc.filter (fun x => x.modified == t) ++ l.filter (fun x => x.modified == t) := by
  induction l with
  | nil => intro acc _; simp
  | cons r rs ih =>
    intro acc hacc
    rw [List.foldl_cons, ih _ (recSorted_insertRecord hacc),
      filter_insertRecord t hacc, List.filter_cons]
    by_cases hr : (r.modified == t) <;> simp [hr]

theorem filter_sortRecords (t : Int) (l : List FileRecord) :
    (sortRecords l).filter (fun x => x.modified == t)
      = l.filter (fun x => x.modified == t) := by
  simpa [sortRecords] using filter_foldl_insert t l [] (by simp [RecSorted])

theorem mem_recentOf {r : FileRecord} {entries : List FSEntry} {cutoff : Int}
    (h : r ∈ recentOf entries cutoff) : cutoff < r.modified := by
  simp only [recentOf, List.mem_filterMap] at h
  obtain ⟨e, _, hr⟩ := h
  split at hr
  · split at hr
    · split at hr
      next hlt =>
        cases hr
        exact hlt
      next => cases hr
    · cases hr
  · cases hr

end FolderAnalyzer

namespace FolderAnalyzer

/-- C4 (counterexample): the claim also demands a `NotFoundError` when the root
exists but is not a readable directory; the source checks only existence, so an
existing unreadable root scans to an empty manifest with no error. -/
theorem scan_accepts_unreadable_root :
    unreadableRoot.readable = false
    ∧ find_recent_files unreadableRoot "root".toList 100000 30 = .ok [] := by
  constructor
  · rfl
  · rfl

/-- C4 (amended): `scan` fails with the not-found error exactly when the root
path does not exist; the error carries only the message, so no partial manifest
is produced, and when the root exists no scan-level error is raised — an
existing root that is not a readable directory is not rejected (its recursive
walk just yields nothing). -/
theorem scan_error_iff_not_exists (folder : Folder) (folderPath : List Char)
    (now days : Int) :
    (∃ msg, find_recent_files folder folderPath now days = .error msg)
      ↔ folder.exists' = false := by
  constructor
  · rintro ⟨msg, hmsg⟩
    by_contra hex
    simp [find_recent_files, hex] at hmsg
  · intro hex
    exact ⟨"フォルダが存在しません: ".toList ++ folderPath,
      by simp [find_recent_files, hex]⟩

/-- C6: every record a successful scan returns has modification time strictly
later than the cutoff `now - days * 86400`; a regular file whose stat succeeds
with a time at or before the cutoff never appears; entries whose stat fails are
skipped and the scan still succeeds. -/
theorem scan_recency_filter (folder : Folder) (folderPath : List Char)
    (now days : Int) (hex : folder.exists' = true) :
    ∃ l, find_recent_files folder folderPath now days = .ok l
      ∧ (∀ r ∈ l, now - days * secondsPerDay < r.modified)
      ∧ (∀ e ∈ folder.entries, e.isFile = true → ∀ mt sz,
          e.stat? = some (mt, sz) → mt ≤ now - days * secondsPerDay →
          ({ path := e.path, modified := mt, size := sz } : FileRecord) ∉ l) := by
  have hok : find_recent_files folder folderPath now days
      = .ok (sortRecords (recentOf folder.entries (now - days * secondsPerDay))) := by
    simp [find_recent_files, hex]
  refine ⟨_, hok, fun r hr => ?_, fun e _ _ mt sz _ hle hmem => ?_⟩
  · exact mem_recentOf (mem_sortRecords.1 hr)
  · have h2 := mem_recentOf (mem_sortRecords.1 hmem)
    exact absurd h2 (not_lt.2 hle)

/-- C6 (witness): the recency theorem applied to the concrete folder
`demoFolder` at `now = 100000` with a one-day window. -/
theorem scan_recency_filter_witness :
    ∃ l, find_recent_files demoFolder "notes".toList 100000 1 = .ok l
      ∧ (∀ r ∈ l, 100000 - 1 * secondsPerDay < r.modified)
      ∧ (∀ e ∈ demoFolder.entries, e.isFile = true → ∀ mt sz,
          e.stat? = some (mt, sz) → mt ≤ 100000 - 1 * secondsPerDay →
          ({ path := e.path, modified := mt, size := sz } : FileRecord) ∉ l) :=
  scan_recency_filter demoFolder "notes".toList 100000 1 rfl

/-- C7: a successful scan's manifest is sorted by non-increasing modification
time, re-sorting it with the same stable sort leaves it unchanged, and for
every timestamp the records carrying it appear in traversal order (stability:
filtering the manifest by one key value gives the same sequence as filtering
the unsorted traversal result). -/
theorem scan_sorted_idempotent (folder : Folder) (folderPath : List Char)
    (now days : Int) (l : List FileRecord)
    (hok : find_recent_files folder folderPath now days = .ok l) :
    RecSorted l ∧ sortRecords l = l
      ∧ ∀ t, l.filter (fun r => r.modified == t)
          = (recentOf folder.entries (now - days * secondsPerDay)).filter
              (fun r => r.modified == t) := by
  have hl : l = sortRecords (recentOf folder.entries (now - days * secondsPerDay)) := by
    by_cases hex : folder.exists' = false
    · simp [find_recent_files, hex] at hok
    · simp [find_recent_files, hex] at hok
      exact hok.symm
  subst hl
  exact ⟨recSorted_sortRecords _,
    sortRecords_of_sorted (recSorted_sortRecords _),
    fun t => filter_sortRecords t _⟩

/-- C7 (witness): the ordering theorem applied to the concrete folder
`tieFolder`, whose scan returns the records with times 70, 50, 50, the two
ties in traversal order. -/
theorem scan_sorted_idempotent_witness :
    RecSorted [(⟨"b".toList, 70000, 2⟩ : FileRecord), ⟨"a".toList, 50000, 1⟩, ⟨"c".toList, 50000, 3⟩]
      ∧ sortRecords [(⟨"b".toList, 70000, 2⟩ : FileRecord), ⟨"a".toList, 50000, 1⟩, ⟨"c".toList, 50000, 3⟩]
          = [⟨"b".toList, 70000, 2⟩, ⟨"a".toList, 50000, 1⟩, ⟨"c".toList, 50000, 3⟩]
      ∧ ∀ t, ([(⟨"b".toList, 70000, 2⟩ : FileRecord), ⟨"a".toList, 50000, 1⟩, ⟨"c".toList, 50000, 3⟩].filter
            (fun r => r.modified == t))
          = (recentOf tieFolder.entries (100000 - 1 * secondsPerDay)).filter
              (fun r => r.modified == t) :=
  scan_sorted_idempotent tieFolder "r".toList 100000 1
    [⟨"b".toList, 70000, 2⟩, ⟨"a".toList, 50000, 1⟩, ⟨"c".toList, 50000, 3⟩] (by decide)

end FolderAnalyzer

namespace FolderAnalyzer

theorem tryFallbacks_eq (f : PyFile) (path : List Char) (encs : List Enc) :
    FileAnalyzer.tryFallbacks f path encs
      = match encs.findSome? (fun e =>
            match f.read e with
            | .ok c => some (e, c)
            | _ => none) with
        | some (e, c) => encTag e ++ c
        | none => undecodableMsg path := by
  induction encs with
  | nil => rfl
  | cons e rest ih =>
    cases hre : f.read e with
    | ok c => simp [FileAnalyzer.tryFallbacks, List.findSome?_cons, hre]
    | decodeError => simp [FileAnalyzer.tryFallbacks, List.findSome?_cons, hre, ih]
    | ioError m => simp [FileAnalyzer.tryFallbacks, List.findSome?_cons, hre, ih]

/-- C5: when the primary UTF-8 decode raises a decode error, the reader's
result is determined by the first fallback encoding that decodes, tried in the
fixed order shift_jis, cp932, latin1, utf-16: the first success is returned
prefixed with the name of the encoding that succeeded, and when every attempt
fails the undecodable sentinel string is returned (the model is a total
function, so no exception escapes and a batch cannot be aborted). -/
theorem reader_fallback_order (f : PyFile) (path : List Char)
    (h : f.read .utf8 = .decodeError) :
    FileAnalyzer.read_file_content f path
      = match firstFallbackSuccess f with
        | some (e, c) => encTag e ++ c
        | none => undecodableMsg path := by
  simp only [FileAnalyzer.read_file_content, h, firstFallbackSuccess]
  exact tryFallbacks_eq f path fallbackEncodings

/-- C5 (witness): the fallback theorem applied to `sjisFile`, whose UTF-8
decode fails and whose shift_jis decode succeeds: the result is the shift_jis
tag followed by the decoded content. -/
theorem reader_fallback_order_witness :
    FileAnalyzer.read_file_content sjisFile "a.txt".toList
      = encTag Enc.shift_jis ++ "#todo".toList :=
  (reader_fallback_order sjisFile "a.txt".toList rfl).trans (by decide)

end FolderAnalyzer

namespace FolderAnalyzer

theorem encTag_append_ne_undecodable (e : Enc) (c path : List Char) :
    encTag e ++ c ≠ undecodableMsg path := by
  intro h
  cases e
  case utf8 =>
    exact absurd (show some 'u' = some '読' from congrArg (fun l => l.get? 1) h)
      (by decide)
  case shift_jis =>
    exact absurd (show some 's' = some '読' from congrArg (fun l => l.get? 1) h)
      (by decide)
  case cp932 =>
    exact absurd (show some 'c' = some '読' from congrArg (fun l => l.get? 1) h)
      (by decide)
  case latin1 =>
    exact absurd (show some 'l' = some '読' from congrArg (fun l => l.get? 1) h)
      (by decide)
  case utf16 =>
    exact absurd (show some 'u' = some '読' from congrArg (fun l => l.get? 1) h)
      (by decide)

/-- C10: because latin1 can decode any byte sequence, the undecodable sentinel
is unreachable for a file whose fallback attempts do not themselves raise an
input error: under a primary decode failure, if no fallback attempt raises a
non-decode exception then some encoding at or before latin1 in the priority
order succeeds and its tagged text is returned; conversely, if the sentinel is
returned then the latin1 attempt itself ended in a non-decode (input) error. -/
theorem undecodable_needs_io_failure (f : PyFile) (path : List Char)
    (h1 : f.read .utf8 = .decodeError)
    (h2 : f.read .latin1 ≠ .decodeError) :
    ((∀ e ∈ fallbackEncodings, ∀ m, f.read e ≠ .ioError m) →
      ∃ e c, e ∈ [Enc.shift_jis, Enc.cp932, Enc.latin1] ∧ f.read e = .ok c ∧
        FileAnalyzer.read_file_content f path = encTag e ++ c)
    ∧ (FileAnalyzer.read_file_content f path = undecodableMsg path →
        ∃ m, f.read .latin1 = .ioError m) := by
  have hres := tryFallbacks_eq f path fallbackEncodings
  have hread : FileAnalyzer.read_file_content f path
      = FileAnalyzer.tryFallbacks f path fallbackEncodings := by
    simp only [FileAnalyzer.read_file_content, h1]
  constructor
  · intro hio
    cases hsj : f.read .shift_jis with
    | ok c =>
      refine ⟨.shift_jis, c, by simp, hsj, ?_⟩
      rw [hread, hres]
      simp [fallbackEncodings, List.findSome?_cons, hsj]
    | ioError m => exact absurd hsj (hio .shift_jis (by simp [fallbackEncodings]) m)
    | decodeError =>
      cases hcp : f.read .cp932 with
      | ok c =>
        refine ⟨.cp932, c, by simp, hcp, ?_⟩
        rw [hread, hres]
        simp [fallbackEncodings, List.findSome?_cons, hsj, hcp]
      | ioError m => exact absurd hcp (hio .cp932 (by simp [fallbackEncodings]) m)
      | decodeError =>
        cases hl1 : f.read .latin1 with
        | ok c =>
          refine ⟨.latin1, c, by simp, hl1, ?_⟩
          rw [hread, hres]
          simp [fallbackEncodings, List.findSome?_cons, hsj, hcp, hl1]
        | ioError m => exact absurd hl1 (hio .latin1 (by simp [fallbackEncodings]) m)
        | decodeError => exact absurd hl1 h2
  · intro hsent
    rw [hread, hres] at hsent
    cases hfs : fallbackEncodings.findSome? (fun e =>
        match f.read e with
        | .ok c => some (e, c)
        | _ => none) with
    | some p =>
      rw [hfs] at hsent
      exact absurd (by exact hsent) (encTag_append_ne_undecodable p.1 p.2 path)
    | none =>
      have hall := List.findSome?_eq_none_iff.1 hfs Enc.latin1 (by simp [fallbackEncodings])
      cases hl1 : f.read .latin1 with
      | ok c => rw [hl1] at hall; cases hall
      | decodeError => exact absurd hl1 h2
      | ioError m => exact ⟨m, rfl⟩

/-- C10 (witness): the theorem applied to `latin1File`, whose shift_jis and
cp932 decodes fail and whose latin1 decode succeeds with no input error
anywhere: the reader returns the latin1-tagged text. -/
theorem undecodable_needs_io_failure_witness :
    ∃ e c, e ∈ [Enc.shift_jis, Enc.cp932, Enc.latin1]
      ∧ latin1File.read e = .ok c
      ∧ FileAnalyzer.read_file_content latin1File "x.bin".toList = encTag e ++ c :=
  (undecodable_needs_io_failure latin1File "x.bin".toList rfl (by decide)).1
    (fun e _ m => by cases e <;> simp [latin1File])

end FolderAnalyzer

namespace FolderAnalyzer

/-- C1: evaluation of the annotator at the failing input. The cross-link and
tag rules append their marker and keep the matched text, but the block-anchor
rule does not: annotating a text containing the anchor yields caret, literal
backslash, the character 1, then the marker — the anchor characters blk1 are
destroyed instead of preserved, because the replacement template escapes the
backreference. The spec (and the two sibling rules) make the intent clear, so
this is a bug in the code, not in the claim. -/
theorem block_anchor_destroys_match :
    processObsidianMarkdown "^blk1".toList = "^\\1（ブロック参照）".toList
    ∧ processObsidianMarkdown "^blk1".toList ≠ "^blk1（ブロック参照）".toList
    ∧ processObsidianMarkdown "[[Project X]] #todo".toList
        = "[[Project X]]（Obsidianリンク） #todo（Obsidianタグ）".toList := by
  refine ⟨by decide, by decide, by decide⟩

/-- C9: evaluation of reapplication at the failing input. Re-running the
annotator doubles the marker after a tag token (and likewise after a
cross-link), as the claim says, but a block-anchor token is destroyed by the
first pass, so reapplication leaves that text unchanged instead of appending a
second marker — the claim describes the intended annotator and fails on the
code for the same replacement-template bug as C1. -/
theorem annotate_reapplication :
    processObsidianMarkdown (processObsidianMarkdown "^blk1".toList)
        = processObsidianMarkdown "^blk1".toList
    ∧ processObsidianMarkdown (processObsidianMarkdown "#todo".toList)
        = "#todo（Obsidianタグ）（Obsidianタグ）".toList
    ∧ processObsidianMarkdown (processObsidianMarkdown "[[P]]".toList)
        = "[[P]]（Obsidianリンク）（Obsidianリンク）".toList := by
  refine ⟨by decide, by decide, by decide⟩

/-- C2 (counterexample): the returned text can exceed the bound of max_chars
plus the truncation marker, in two ways. A markdown file whose five-character
content fits the budget exactly still grows by the appended tag marker; a
fallback-decoded file grows by the encoding-name prefix. Both exceed
5 + 3 characters. -/
theorem extract_length_bound_fails :
    ¬ ((Agents.read_file_content tagOnlyFile "a.md".toList 5).length
        ≤ 5 + "...".toList.length)
    ∧ ¬ ((Agents.read_file_content sjisFile "a.txt".toList 5).length
        ≤ 5 + "...".toList.length) := by
  refine ⟨by decide, by decide⟩

/-- C2 (amended): the truncated decoded text itself never exceeds max_chars
plus the truncation marker; for a file whose primary decode succeeds and whose
extension is not the note extension nothing more is appended, so the returned
text obeys the bound. (A note file additionally receives annotation markers and
a fallback decode receives the encoding-name prefix, which is what the
counterexample exhibits.) -/
theorem extract_length_bound (f : PyFile) (path : List Char) (m : Nat)
    (c : List Char) (h : f.read .utf8 = .ok c)
    (hext : lowerStr (pathSuffix path) ≠ mdExt) :
    (Agents.read_file_content f path m).length ≤ m + "...".toList.length := by
  simp only [Agents.read_file_content, h]
  rw [if_neg hext]
  simp only [truncateContent]
  split
  next hlt =>
    simp only [List.length_append, List.length_take]
    simp
  next hge =>
    simp at hge ⊢
    omega

/-- C2 (witness): the length bound applied to `tagOnlyFile` read as a plain
text file with a budget of 5. -/
theorem extract_length_bound_witness :
    (Agents.read_file_content tagOnlyFile "a.txt".toList 5).length
      ≤ 5 + "...".toList.length :=
  extract_length_bound tagOnlyFile "a.txt".toList 5 "#todo".toList rfl (by decide)

/-- C3 (counterexample): a markdown file decoded by a fallback encoding is NOT
annotated: `sjisFile` read under the markdown extension returns the tagged raw
text, which differs from what prefixing the annotated text would give — the
tag token inside stays unmarked. -/
theorem fallback_markdown_not_annotated :
    Agents.read_file_content sjisFile "a.md".toList 2000
        = encTag .shift_jis ++ "#todo".toList
    ∧ Agents.read_file_content sjisFile "a.md".toList 2000
        ≠ encTag .shift_jis ++ processObsidianMarkdown "#todo".toList := by
  refine ⟨by decide, by decide⟩

/-- C3 (amended): when the primary UTF-8 decode succeeds and the lower-cased
extension is the markdown one, the returned text is the annotator applied to
the truncated text — annotation runs after truncation, so a token split by
truncation is not annotated; when the text comes from a fallback decode it is
returned tagged but WITHOUT annotation (shift_jis shown as the first
fallback). -/
theorem annotate_after_truncate (f : PyFile) (path : List Char) (m : Nat)
    (c : List Char) :
    (f.read .utf8 = .ok c → lowerStr (pathSuffix path) = mdExt →
      Agents.read_file_content f path m
        = processObsidianMarkdown (truncateContent c m))
    ∧ (f.read .utf8 = .decodeError → f.read .shift_jis = .ok c →
      Agents.read_file_content f path m
        = encTag .shift_jis ++ truncateContent c m) := by
  constructor
  · intro h hext
    simp [Agents.read_file_content, h, hext]
  · intro h hsj
    simp [Agents.read_file_content, Agents.tryFallbacks, fallbackEncodings, h, hsj]

/-- C3 (witness): `splitTagFile` holds the text x#todo; a two-character budget
truncates it to x# followed by the marker, and the annotator, running after
truncation, finds no tag token: the result is the unannotated x#... -/
theorem annotate_after_truncate_witness :
    Agents.read_file_content splitTagFile "a.md".toList 2 = "x#...".toList :=
  ((annotate_after_truncate splitTagFile "a.md".toList 2 "x#todo".toList).1
    rfl (by decide)).trans (by decide)

end FolderAnalyzer

namespace FolderAnalyzer

theorem toNat_ofNat_valid {n : Nat} (h : n < 55296) : (Char.ofNat n).toNat = n := by
  have hv : n.isValidChar := Or.inl h
  simp [Char.ofNat, hv]
  simp [Char.ofNatAux, Char.toNat, UInt32.toNat, UInt32.ofNatCore]

theorem char_eq_of_toNat {a b : Char} (h : a.toNat = b.toNat) : a = b := by
  apply Char.eq_of_val_eq
  apply UInt32.toNat.inj h

theorem toLower_toUpper (c : Char) : (Char.toUpper c).toLower = Char.toLower c := by
  unfold Char.toUpper Char.toLower
  by_cases h : c.toNat ≥ 97 ∧ c.toNat ≤ 122
  · rw [if_pos h]
    have h1 : (Char.ofNat (c.toNat - 32)).toNat = c.toNat - 32 :=
      toNat_ofNat_valid (by omega)
    rw [if_pos (show (Char.ofNat (c.toNat - 32)).toNat ≥ 65
          ∧ (Char.ofNat (c.toNat - 32)).toNat ≤ 90 by omega),
      if_neg (show ¬ (c.toNat ≥ 65 ∧ c.toNat ≤ 90) by omega)]
    apply char_eq_of_toNat
    rw [h1, toNat_ofNat_valid (by omega)]
    omega
  · rw [if_neg h]

theorem toUpper_eq_low_iff {c d : Char} (hd : d.toNat < 65) :
    Char.toUpper c = d ↔ c = d := by
  constructor
  · intro h
    by_cases hc : c.toNat ≥ 97 ∧ c.toNat ≤ 122
    · exfalso
      have h1 : (Char.toUpper c).toNat = c.toNat - 32 := by
        unfold Char.toUpper
        rw [if_pos hc]
        exact toNat_ofNat_valid (by omega)
      rw [h] at h1
      omega
    · unfold Char.toUpper at h
      rwa [if_neg hc] at h
  · intro h
    subst h
    unfold Char.toUpper
    rw [if_neg (by omega)]

theorem toUpper_bne (c : Char) {d : Char} (hd : d.toNat < 65) :
    (Char.toUpper c != d) = (c != d) := by
  by_cases hc : c = d
  · rw [hc, (toUpper_eq_low_iff hd).2 rfl]
  · have h2 : Char.toUpper c ≠ d := fun h => hc ((toUpper_eq_low_iff hd).1 h)
    rw [show (Char.toUpper c != d) = true from bne_iff_ne.mpr h2,
      show (c != d) = true from bne_iff_ne.mpr hc]

theorem pathName_map_toUpper (p : List Char) :
    pathName (List.map Char.toUpper p) = List.map Char.toUpper (pathName p) := by
  unfold pathName
  rw [← List.map_reverse, List.takeWhile_map,
    show ((fun c => c != '/') ∘ Char.toUpper) = (fun c => c != '/')
      from funext fun c => toUpper_bne c (by decide),
    List.map_reverse]

theorem pathSuffix_map_toUpper (p : List Char) :
    pathSuffix (List.map Char.toUpper p) = List.map Char.toUpper (pathSuffix p) := by
  simp only [pathSuffix]
  rw [pathName_map_toUpper, ← List.map_reverse, List.takeWhile_map,
    show ((fun c => c != '.') ∘ Char.toUpper) = (fun c => c != '.')
      from funext fun c => toUpper_bne c (by decide)]
  simp only [List.length_map]
  split
  · rw [← List.map_take, ← List.map_reverse]
    simp [show Char.toUpper '.' = '.' from by decide]
  · rfl

theorem lowerStr_map_toUpper (s : List Char) :
    lowerStr (List.map Char.toUpper s) = lowerStr s := by
  unfold lowerStr
  rw [List.map_map]
  exact List.map_congr_left fun c _ => toLower_toUpper c

theorem extKey_map_toUpper (p : List Char) :
    extKey (List.map Char.toUpper p) = extKey p := by
  unfold extKey
  rw [pathSuffix_map_toUpper, lowerStr_map_toUpper]

end FolderAnalyzer

namespace FolderAnalyzer

theorem sumCounts_bump (ext : List Char) (size : Nat)
    (st : List (List Char × TypeStat)) :
    sumCounts (bump ext size st) = sumCounts st + 1 := by
  induction st with
  | nil => simp [bump, sumCounts]
  | cons p rest ih =>
    obtain ⟨k, s⟩ := p
    simp only [bump]
    split
    · simp [sumCounts]
      omega
    · simp only [sumCounts, List.map_cons, List.sum_cons] at ih ⊢
      omega

theorem sumSizes_bump (ext : List Char) (size : Nat)
    (st : List (List Char × TypeStat)) :
    sumSizes (bump ext size st) = sumSizes st + size := by
  induction st with
  | nil => simp [bump, sumSizes]
  | cons p rest ih =>
    obtain ⟨k, s⟩ := p
    simp only [bump]
    split
    · simp [sumSizes]
      omega
    · simp only [sumSizes, List.map_cons, List.sum_cons] at ih ⊢
      omega

theorem mem_bump_self (ext : List Char) (size : Nat)
    (st : List (List Char × TypeStat)) :
    ∃ s, (ext, s) ∈ bump ext size st := by
  induction st with
  | nil => exact ⟨⟨1, size⟩, by simp [bump]⟩
  | cons p rest ih =>
    obtain ⟨k, s⟩ := p
    simp only [bump]
    split
    next heq =>
      subst heq
      exact ⟨⟨s.count + 1, s.total_size + size⟩, by simp⟩
    next =>
      obtain ⟨s2, hs2⟩ := ih
      exact ⟨s2, by simp [hs2]⟩

theorem mem_bump_preserve {q : List Char} {sq : TypeStat} (ext : List Char)
    (size : Nat) {st : List (List Char × TypeStat)} (h : (q, sq) ∈ st) :
    ∃ s2, (q, s2) ∈ bump ext size st := by
  induction st with
  | nil => simp at h
  | cons p rest ih =>
    obtain ⟨k, s⟩ := p
    simp only [bump]
    rcases List.mem_cons.1 h with heq | hmem
    · obtain ⟨hk, hs⟩ := Prod.mk.injEq .. ▸ heq
      subst hk
      split
      next he =>
        subst he
        exact ⟨⟨s.count + 1, s.total_size + size⟩, by simp⟩
      next => exact ⟨sq, by simp [hs]⟩
    · split
      · exact ⟨sq, by simp [hmem]⟩
      · obtain ⟨s2, hs2⟩ := ih hmem
        exact ⟨s2, by simp [hs2]⟩

theorem agg_foldl_invariant (files : List FileRecord) :
    ∀ acc : List (List Char × TypeStat) × Nat,
      sumCounts (files.foldl aggStep acc).1 = sumCounts acc.1 + files.length
      ∧ sumSizes (files.foldl aggStep acc).1 = sumSizes acc.1 + sizesOf files
      ∧ (files.foldl aggStep acc).2 = acc.2 + sizesOf files
      ∧ (∀ q sq, (q, sq) ∈ acc.1 → ∃ s2, (q, s2) ∈ (files.foldl aggStep acc).1)
      ∧ (∀ g ∈ files, ∃ s, (extKey g.path, s) ∈ (files.foldl aggStep acc).1) := by
  induction files with
  | nil =>
    intro acc
    simp [sizesOf]
    intro q sq h
    exact ⟨sq, h⟩
  | cons g gs ih =>
    intro acc
    rw [List.foldl_cons]
    obtain ⟨ih1, ih2, ih3, ih4, ih5⟩ := ih (aggStep acc g)
    refine ⟨?_, ?_, ?_, ?_, ?_⟩
    · rw [ih1]
      simp only [aggStep, sumCounts_bump, List.length_cons]
      omega
    · rw [ih2]
      simp only [aggStep, sumSizes_bump, sizesOf, List.map_cons, List.sum_cons]
      omega
    · rw [ih3]
      simp only [aggStep, sizesOf, List.map_cons, List.sum_cons]
      omega
    · intro q sq hq
      obtain ⟨s2, hs2⟩ := mem_bump_preserve (extKey g.path) g.size hq
      exact ih4 q s2 (by simpa [aggStep] using hs2)
    · intro f hf
      rcases List.mem_cons.1 hf with rfl | hmem
      · obtain ⟨s, hs⟩ := mem_bump_self (extKey f.path) f.size acc.1
        exact ih4 _ _ (by simpa [aggStep] using hs)
      · exact ih5 f hmem

/-- C8: the aggregate satisfies its counting invariants for every manifest:
the per-extension counts sum to total_files (the manifest length), the
per-extension sizes sum to total_size, which is the sum of the manifest's
sizes; every file lands in the bucket of its key, so none is dropped and a
file without an extension lands in the explicit no-extension bucket; and the
key derivation is case-insensitive (upper-casing a path leaves its key
unchanged, since the suffix is lower-cased). -/
theorem aggregate_invariants (files : List FileRecord) :
    sumCounts (analyze_file_types files).file_types
        = (analyze_file_types files).total_files
    ∧ sumSizes (analyze_file_types files).file_types
        = (analyze_file_types files).total_size
    ∧ (analyze_file_types files).total_size = sizesOf files
    ∧ (∀ g ∈ files, ∃ s, (extKey g.path, s) ∈ (analyze_file_types files).file_types)
    ∧ (∀ p : List Char, extKey (List.map Char.toUpper p) = extKey p)
    ∧ (∀ g ∈ files, lowerStr (pathSuffix g.path) = [] →
        ∃ s, ("拡張子なし".toList, s) ∈ (analyze_file_types files).file_types) := by
  obtain ⟨h1, h2, h3, _, h5⟩ := agg_foldl_invariant files ([], 0)
  refine ⟨?_, ?_, ?_, ?_, fun p => extKey_map_toUpper p, ?_⟩
  · simpa [analyze_file_types, sumCounts] using h1
  · simp only [analyze_file_types]
    rw [h2, h3]
    simp [sumSizes]
  · simpa [analyze_file_types] using h3
  · intro g hg
    exact h5 g hg
  · intro g hg hsuf
    obtain ⟨s, hs⟩ := h5 g hg
    rw [extKey, hsuf] at hs
    exact ⟨s, by simpa using hs⟩

/-- C8 (witness): the invariants applied to the concrete manifest
`demoManifest`: the upper-case markdown file is aggregated under its
lower-cased key. -/
theorem aggregate_invariants_witness :
    ∃ s, (extKey "notes/a.MD".toList, s)
        ∈ (analyze_file_types demoManifest).file_types :=
  (aggregate_invariants demoManifest).2.2.2.1
    ⟨"notes/a.MD".toList, 50000, 7⟩ (by decide)

end FolderAnalyzer
